import Mathlib

/-!
Verification of the VrukshaVeda plant-catalog application's specified
behaviour against a shallow embedding of its client-side logic.

Strings are modelled as `List Char`; for the texts involved (ASCII and
Devanagari, all in the Basic Multilingual Plane) one `Char` corresponds to
one UTF-16 code unit, so `List.length` agrees with JavaScript's
`String.length`.
-/

set_option maxRecDepth 100000

namespace VrukshaVeda

/-- Whitespace test matching JavaScript's `\s` on the character classes the
application can encounter (space, tab, LF, CR, VT, FF, NBSP). -/
def isWs (c : Char) : Bool :=
  c == ' ' || c == '\t' || c == '\n' || c == '\r' ||
  c == '\x0b' || c == '\x0c' || c == ' '

/-- Sentence-ending punctuation of the chunker's split regex
`/(?<=[।.!?])\s+/` in `PlantDetail.tsx` (`chunkText`). -/
def isSentEnd (c : Char) : Bool :=
  c == '।' || c == '.' || c == '!' || c == '?'

/-- Embedding of `text.replace(/\s+/g, " ")`: each maximal whitespace run
becomes a single space.  `prevWs` records whether the previously consumed
character was part of a whitespace run. -/
def collapseAux (prevWs : Bool) : List Char → List Char
  | [] => []
  | c :: rest =>
    if isWs c then
      if prevWs then collapseAux true rest
      else ' ' :: collapseAux true rest
    else c :: collapseAux false rest

/-- `text.replace(/\s+/g, " ")` from `chunkText`. -/
def collapse (l : List Char) : List Char := collapseAux false l

/-- Embedding of `.split(/(?<=[।.!?])\s+/)`: a split occurs at a whitespace
run immediately preceded by sentence-ending punctuation; the run is the
separator and is dropped.  `skipping` means we are inside a separator run,
`prevEnd` means the previous character was sentence-ending punctuation,
`cur` accumulates the current sentence in reverse. -/
def splitAux (skipping prevEnd : Bool) (cur : List Char) : List Char → List (List Char)
  | [] => [cur.reverse]
  | c :: rest =>
    if skipping then
      if isWs c then splitAux true false cur rest
      else splitAux false (isSentEnd c) [c] rest
    else if prevEnd && isWs c then
      cur.reverse :: splitAux true false [] rest
    else splitAux false (isSentEnd c) (c :: cur) rest

/-- The sentence list produced by the split regex of `chunkText`. -/
def splitSentences (l : List Char) : List (List Char) := splitAux false false [] l

/-- JavaScript `String.prototype.trim`: drop whitespace from both ends. -/
def trimChars (l : List Char) : List Char :=
  ((l.dropWhile isWs).reverse.dropWhile isWs).reverse

/-- The hard-split loop
`for (let i = 0; i < s.length; i += maxLen) chunks.push(s.slice(i, i + maxLen))`.
The fuel argument makes the recursion structural; with `1 ≤ maxLen` and
fuel `≥ s.length` it computes exactly the JavaScript loop. -/
def sliceGo (maxLen : Nat) : Nat → List Char → List (List Char)
  | _, [] => []
  | 0, _ :: _ => []
  | fuel + 1, c :: rest =>
    (c :: rest).take maxLen :: sliceGo maxLen fuel ((c :: rest).drop maxLen)

/-- Hard split of an over-long sentence into `maxLen`-sized slices. -/
def sliceChunks (maxLen : Nat) (s : List Char) : List (List Char) :=
  sliceGo maxLen s.length s

/-- The main accumulation loop of `chunkText`: `buf` is the pending chunk,
the list argument the remaining sentences.  Mirrors the source line by
line, including the `(buf + " " + s).trim().length <= maxLen` test and
`buf = (buf ? buf + " " : "") + s`. -/
def chunkLoop (maxLen : Nat) : List (List Char) → List Char → List (List Char)
  | [], buf => if buf.isEmpty then [] else [buf]
  | s :: ss, buf =>
    if (trimChars (buf ++ ' ' :: s)).length ≤ maxLen then
      chunkLoop maxLen ss (if buf.isEmpty then s else buf ++ ' ' :: s)
    else
      (if buf.isEmpty then [] else [buf]) ++
        (if s.length ≤ maxLen then chunkLoop maxLen ss s
         else sliceChunks maxLen s ++ chunkLoop maxLen ss [])

/-- `chunkText` from `PlantDetail.tsx` (Sanskrit-only revision, default
bound 180). -/
def chunkText (t : List Char) (maxLen : Nat := 180) : List (List Char) :=
  chunkLoop maxLen (splitSentences (collapse t)) []

/-- Text with all whitespace characters removed; two texts are "equal up to
whitespace" when their `stripWs` images agree. -/
def stripWs (l : List Char) : List Char := l.filter (fun c => !isWs c)

example : chunkText "a. b".data 180 = ["a. b".data] := by decide

example : chunkText "a\nb".data 180 = ["a b".data] := by decide

example : chunkText "".data 180 = [] := by decide

theorem stripWs_append (a b : List Char) :
    stripWs (a ++ b) = stripWs a ++ stripWs b := by
  simp [stripWs, List.filter_append]

theorem stripWs_cons (c : Char) (l : List Char) :
    stripWs (c :: l) = (if isWs c then [] else [c]) ++ stripWs l := by
  simp only [stripWs, List.filter_cons]
  cases h : isWs c <;> simp [h]

theorem isWs_space : isWs ' ' = true := rfl

theorem stripWs_collapseAux (l : List Char) :
    ∀ b : Bool, stripWs (collapseAux b l) = stripWs l := by
  induction l with
  | nil => intro b; rfl
  | cons c rest ih =>
    intro b
    cases hw : isWs c with
    | false => simp [collapseAux, hw, stripWs_cons, ih]
    | true =>
      cases b <;> simp [collapseAux, hw, stripWs_cons, ih, isWs_space]

theorem stripWs_collapse (l : List Char) : stripWs (collapse l) = stripWs l :=
  stripWs_collapseAux l false

theorem stripWs_flatten_splitAux (l : List Char) :
    ∀ (sk pe : Bool) (cur : List Char), (sk = true → cur = []) →
      stripWs (List.flatten (splitAux sk pe cur l)) = stripWs cur.reverse ++ stripWs l := by
  induction l with
  | nil => intro sk pe cur _; simp [splitAux, stripWs]
  | cons c rest ih =>
    intro sk pe cur hcur
    cases sk with
    | true =>
      have hc : cur = [] := hcur rfl
      subst hc
      cases hw : isWs c with
      | true =>
        simpa [splitAux, hw, stripWs_cons] using ih true false [] (fun _ => rfl)
      | false =>
        have h2 := ih false (isSentEnd c) [c] (by simp)
        simpa [splitAux, hw, stripWs_cons] using h2
    | false =>
      cases hpw : (pe && isWs c) with
      | true =>
        have hpe : pe = true ∧ isWs c = true := by simpa using hpw
        have h2 := ih true false [] (fun _ => rfl)
        rw [show splitAux false pe cur (c :: rest)
              = cur.reverse :: splitAux true false [] rest by
            simp [splitAux, hpw, hpe.1, hpe.2]]
        rw [List.flatten_cons, stripWs_append, h2, stripWs_cons c rest]
        simp [hpe.2, stripWs]
      | false =>
        have h2 := ih false (isSentEnd c) (c :: cur) (by simp)
        rw [show splitAux false pe cur (c :: rest)
              = splitAux false (isSentEnd c) (c :: cur) rest by
            simp [splitAux, hpw]]
        rw [h2, List.reverse_cons, stripWs_append, stripWs_cons c rest]
        cases hw : isWs c <;> simp [stripWs, List.filter_cons, hw, List.append_assoc]

theorem flatten_sliceGo (maxLen : Nat) (hm : 1 ≤ maxLen) :
    ∀ (fuel : Nat) (s : List Char), s.length ≤ fuel →
      List.flatten (sliceGo maxLen fuel s) = s := by
  intro fuel
  induction fuel with
  | zero =>
    intro s hs
    cases s with
    | nil => rfl
    | cons c rest => simp at hs
  | succ fuel ih =>
    intro s hs
    cases s with
    | nil => rfl
    | cons c rest =>
      rw [sliceGo, List.flatten_cons, ih ((c :: rest).drop maxLen)]
      · exact List.take_append_drop maxLen (c :: rest)
      · have hd : (c :: rest).length - maxLen ≤ fuel := by
          simp only [List.length_cons] at hs ⊢
          omega
        simpa [List.length_drop] using hd

theorem mem_sliceGo (maxLen : Nat) (hm : 1 ≤ maxLen) :
    ∀ (fuel : Nat) (s c : List Char), c ∈ sliceGo maxLen fuel s →
      c ≠ [] ∧ c.length ≤ maxLen := by
  intro fuel
  induction fuel with
  | zero =>
    intro s c hc
    cases s with
    | nil => simp [sliceGo] at hc
    | cons a rest => simp [sliceGo] at hc
  | succ fuel ih =>
    intro s c hc
    cases s with
    | nil => simp [sliceGo] at hc
    | cons a rest =>
      rw [sliceGo] at hc
      rcases List.mem_cons.mp hc with h | h
      · subst h
        constructor
        · have hlen : 0 < ((a :: rest).take maxLen).length := by
            rw [List.length_take]
            simp [Nat.lt_min]
            omega
          exact List.ne_nil_of_length_pos hlen
        · rw [List.length_take]; exact Nat.min_le_left _ _
      · exact ih _ c h

theorem trimChars_cons_space (s : List Char) : trimChars (' ' :: s) = trimChars s := by
  simp [trimChars, List.dropWhile_cons, isWs_space]

theorem length_dropWhileWs_le (l : List Char) :
    (List.dropWhile isWs l).length ≤ l.length := by
  induction l with
  | nil => simp
  | cons c rest ih =>
    rw [List.dropWhile_cons]
    by_cases h : isWs c = true
    · simp only [h, if_true]
      exact Nat.le_succ_of_le ih
    · simp [h]

theorem length_trimChars_le (l : List Char) : (trimChars l).length ≤ l.length := by
  have h1 : (List.dropWhile isWs l).length ≤ l.length := length_dropWhileWs_le l
  have h2 : (List.dropWhile isWs (List.dropWhile isWs l).reverse).length
      ≤ (List.dropWhile isWs l).reverse.length := length_dropWhileWs_le _
  simp only [trimChars, List.length_reverse] at *
  omega

theorem stripWs_flatten_chunkLoop (maxLen : Nat) (hm : 1 ≤ maxLen) :
    ∀ (ss : List (List Char)) (buf : List Char),
      stripWs (List.flatten (chunkLoop maxLen ss buf))
        = stripWs buf ++ stripWs (List.flatten ss) := by
  intro ss
  induction ss with
  | nil =>
    intro buf
    cases hb : buf.isEmpty with
    | true =>
      have : buf = [] := List.isEmpty_iff.mp hb
      subst this; simp [chunkLoop, stripWs]
    | false => simp [chunkLoop, hb, stripWs]
  | cons s ss ih =>
    intro buf
    rw [chunkLoop]
    by_cases hc : (trimChars (buf ++ ' ' :: s)).length ≤ maxLen
    · rw [if_pos hc, ih]
      cases hb : buf.isEmpty with
      | true =>
        have : buf = [] := List.isEmpty_iff.mp hb
        subst this
        simp [stripWs_append, stripWs]
      | false =>
        simp [hb, stripWs_append, stripWs_cons, isWs_space, List.append_assoc, stripWs]
    · rw [if_neg hc]
      rw [List.flatten_append, stripWs_append]
      have hbuf : stripWs (List.flatten (if buf.isEmpty = true then [] else [buf]))
          = stripWs buf := by
        cases hb : buf.isEmpty with
        | true =>
          have : buf = [] := List.isEmpty_iff.mp hb
          subst this; simp [stripWs]
        | false => simp [stripWs]
      rw [hbuf]
      by_cases hsl : s.length ≤ maxLen
      · rw [if_pos hsl, ih, List.flatten_cons, stripWs_append]
      · rw [if_neg hsl, List.flatten_append, stripWs_append]
        simp only [sliceChunks]
        rw [flatten_sliceGo maxLen hm s.length s (Nat.le_refl _), ih]
        simp [stripWs, List.append_assoc]

theorem chunkLoop_ne_nil (maxLen : Nat) (hm : 1 ≤ maxLen) :
    ∀ (ss : List (List Char)) (buf c : List Char),
      c ∈ chunkLoop maxLen ss buf → c ≠ [] := by
  intro ss
  induction ss with
  | nil =>
    intro buf c hc
    cases hb : buf.isEmpty with
    | true => simp [chunkLoop, hb] at hc
    | false =>
      simp [chunkLoop, hb] at hc
      subst hc
      exact fun h => by simp [h] at hb
  | cons s ss ih =>
    intro buf c hc
    rw [chunkLoop] at hc
    by_cases hcond : (trimChars (buf ++ ' ' :: s)).length ≤ maxLen
    · rw [if_pos hcond] at hc
      exact ih _ c hc
    · rw [if_neg hcond] at hc
      rcases List.mem_append.mp hc with h | h
      · cases hb : buf.isEmpty with
        | true => simp [hb] at h
        | false =>
          simp [hb] at h
          subst h
          exact fun h => by simp [h] at hb
      · by_cases hsl : s.length ≤ maxLen
        · rw [if_pos hsl] at h
          exact ih _ c h
        · rw [if_neg hsl] at h
          rcases List.mem_append.mp h with h2 | h2
          · exact (mem_sliceGo maxLen hm s.length s c h2).1
          · exact ih _ c h2

theorem chunkLoop_trim_le (maxLen : Nat) (hm : 1 ≤ maxLen) :
    ∀ (ss : List (List Char)) (buf : List Char),
      (trimChars buf).length ≤ maxLen →
      ∀ c ∈ chunkLoop maxLen ss buf, (trimChars c).length ≤ maxLen := by
  intro ss
  induction ss with
  | nil =>
    intro buf hbuf c hc
    cases hb : buf.isEmpty with
    | true => simp [chunkLoop, hb] at hc
    | false =>
      simp [chunkLoop, hb] at hc
      subst hc; exact hbuf
  | cons s ss ih =>
    intro buf hbuf c hc
    rw [chunkLoop] at hc
    by_cases hcond : (trimChars (buf ++ ' ' :: s)).length ≤ maxLen
    · rw [if_pos hcond] at hc
      refine ih _ ?_ c hc
      cases hb : buf.isEmpty with
      | true =>
        have : buf = [] := List.isEmpty_iff.mp hb
        subst this
        simp only [hb, if_true]
        simpa [trimChars_cons_space] using hcond
      | false => simpa [hb] using hcond
    · rw [if_neg hcond] at hc
      rcases List.mem_append.mp hc with h | h
      · cases hb : buf.isEmpty with
        | true => simp [hb] at h
        | false =>
          simp [hb] at h
          subst h; exact hbuf
      · by_cases hsl : s.length ≤ maxLen
        · rw [if_pos hsl] at h
          refine ih _ ?_ c h
          exact Nat.le_trans (length_trimChars_le s) hsl
        · rw [if_neg hsl] at h
          rcases List.mem_append.mp h with h2 | h2
          · exact Nat.le_trans (length_trimChars_le c) (mem_sliceGo maxLen hm s.length s c h2).2
          · refine ih _ ?_ c h2
            simp [trimChars]

theorem chunkText_hardSplit (t s : List Char) (maxLen : Nat)
    (hs : splitSentences (collapse t) = [s]) (hl : maxLen < (trimChars s).length) :
    chunkText t maxLen = sliceChunks maxLen s := by
  unfold chunkText
  rw [hs, chunkLoop]
  have hc : ¬ (trimChars ([] ++ ' ' :: s)).length ≤ maxLen := by
    simpa [trimChars_cons_space] using Nat.not_le.mpr hl
  rw [if_neg hc]
  have hsl : ¬ s.length ≤ maxLen := by
    have := Nat.le_trans (Nat.succ_le_of_lt hl) (length_trimChars_le s)
    omega
  rw [if_neg hsl]
  simp [chunkLoop]

/-- Round-trip of the chunker up to whitespace: shared helper for the
chunker claims. -/
theorem stripWs_flatten_chunkText (t : List Char) :
    stripWs (List.flatten (chunkText t 180)) = stripWs t := by
  unfold chunkText
  rw [stripWs_flatten_chunkLoop 180 (by omega)]
  have h := stripWs_flatten_splitAux (collapse t) false false [] (fun h => by simp at h)
  simp only [splitSentences]
  rw [h, stripWs_collapse]
  simp [stripWs]

/-- The example text of the spec, "शान्तिः शान्तिः शान्तिः।". -/
def shantiText : List Char := "शान्तिः शान्तिः शान्तिः।".data

/-- Claim C1 as stated is false: `chunkText` first collapses every interior
whitespace run to a single space, so for the input "a\nb" the single chunk
produced is "a b", which differs from the input even though no chunk
boundary exists (so no boundary whitespace was inserted or stripped). The
input is already trimmed, so the difference is not boundary trimming. -/
theorem C1_counterexample :
    chunkText "a\nb".data 180 = ["a b".data]
    ∧ "a b".data ≠ "a\nb".data
    ∧ trimChars "a\nb".data = "a\nb".data := by decide

/-- Claim C1 (amended): concatenating the ordered chunks of
`chunkText T 180` reproduces `T` up to whitespace — ignoring all whitespace
differences, not only those at chunk boundaries, since the chunker also
normalises interior whitespace runs to single spaces.  The example text
"शान्तिः शान्तिः शान्तिः।" yields exactly one chunk equal to the trimmed
input. -/
theorem C1_chunk_reconstruction :
    (∀ t : List Char, stripWs (List.flatten (chunkText t 180)) = stripWs t)
    ∧ chunkText shantiText 180 = [trimChars shantiText] := by
  exact ⟨stripWs_flatten_chunkText, by decide⟩

/-- Claim C2 as stated is false: a chunk may exceed the 180-character bound.
With input consisting of a space followed by 180 letters, the length test
`(buf + " " + s).trim().length <= maxLen` passes (the trimmed length is
180), but the chunk stored is the untrimmed sentence of length 181. -/
theorem C2_counterexample :
    chunkText (' ' :: List.replicate 180 'a') 180 = [' ' :: List.replicate 180 'a']
    ∧ 180 < (' ' :: List.replicate 180 'a').length := by decide

/-- Claim C2 (amended): every chunk of `chunkText _ 180` is non-empty and
has TRIMMED length at most 180 (the raw length can exceed the bound by
leading/trailing whitespace kept in the buffer); chunks appear in input
order and reproduce the input up to whitespace; and a single sentence
whose trimmed length exceeds the bound is hard-split at the 180-character
boundary. -/
theorem C2_chunk_bounds :
    ∀ t : List Char,
      (∀ c ∈ chunkText t 180, c ≠ [] ∧ (trimChars c).length ≤ 180)
      ∧ stripWs (List.flatten (chunkText t 180)) = stripWs t
      ∧ (∀ s, splitSentences (collapse t) = [s] → 180 < (trimChars s).length →
           chunkText t 180 = sliceChunks 180 s) := by
  intro t
  refine ⟨fun c hc => ⟨?_, ?_⟩, stripWs_flatten_chunkText t, fun s hs hl => ?_⟩
  · exact chunkLoop_ne_nil 180 (by omega) _ [] c hc
  · exact chunkLoop_trim_le 180 (by omega) _ [] (by simp [trimChars]) c hc
  · exact chunkText_hardSplit t s 180 hs hl

/-- Witness for C2: evaluates the amended theorem at concrete inputs,
discharging the membership hypothesis at the single chunk of "a" and the
hard-split hypotheses at a 200-character sentence. -/
theorem C2_chunk_bounds_witness :
    ("a".data ≠ [] ∧ (trimChars "a".data).length ≤ 180)
    ∧ chunkText (List.replicate 200 'a') 180 = sliceChunks 180 (List.replicate 200 'a') := by
  exact ⟨(C2_chunk_bounds "a".data).1 "a".data (by decide),
    (C2_chunk_bounds (List.replicate 200 'a')).2.2 (List.replicate 200 'a')
      (by decide) (by decide)⟩

/-! ### Substring primitives (JavaScript `startsWith` / `includes`) -/

/-- JavaScript `hay.startsWith(needle)` on code-unit lists; argument order
is (needle, hay). -/
def listStartsWith : List Char → List Char → Bool
  | [], _ => true
  | _ :: _, [] => false
  | a :: as, b :: bs => a == b && listStartsWith as bs

/-- JavaScript `hay.includes(needle)`: `needle` occurs contiguously in
`hay`. -/
def listHasSub : List Char → List Char → Bool
  | [], needle => listStartsWith needle []
  | h :: t, needle => listStartsWith needle (h :: t) || listHasSub t needle

theorem listStartsWith_iff (needle : List Char) :
    ∀ hay : List Char, listStartsWith needle hay = true ↔ ∃ r, hay = needle ++ r := by
  induction needle with
  | nil => intro hay; simp [listStartsWith]
  | cons a as ih =>
    intro hay
    cases hay with
    | nil => simp [listStartsWith]
    | cons b bs =>
      simp only [listStartsWith, Bool.and_eq_true, beq_iff_eq, ih bs, List.cons_append,
        List.cons.injEq]
      constructor
      · rintro ⟨hab, r, hr⟩; exact ⟨r, hab.symm, hr⟩
      · rintro ⟨r, hab, hr⟩; exact ⟨hab.symm, r, hr⟩

theorem listHasSub_iff (hay needle : List Char) :
    listHasSub hay needle = true ↔ ∃ l r, hay = l ++ needle ++ r := by
  induction hay with
  | nil =>
    rw [listHasSub, listStartsWith_iff]
    constructor
    · rintro ⟨r, hr⟩
      rcases List.append_eq_nil.mp hr.symm with ⟨h1, h2⟩
      exact ⟨[], [], by simp [h1]⟩
    · rintro ⟨l, r, hr⟩
      rcases List.append_eq_nil.mp hr.symm with ⟨h1, h2⟩
      rcases List.append_eq_nil.mp h1 with ⟨h3, h4⟩
      exact ⟨[], by simp [h4]⟩
  | cons h t ih =>
    rw [listHasSub]
    simp only [Bool.or_eq_true, listStartsWith_iff, ih]
    constructor
    · rintro (⟨r, hr⟩ | ⟨l, r, hr⟩)
      · exact ⟨[], r, by simpa using hr⟩
      · exact ⟨h :: l, r, by simp [hr]⟩
    · rintro ⟨l, r, hr⟩
      cases l with
      | nil => exact Or.inl ⟨r, by simpa using hr⟩
      | cons a l2 =>
        have h2 : h = a ∧ t = l2 ++ needle ++ r := by simpa using hr
        exact Or.inr ⟨l2, r, h2.2⟩

theorem listHasSub_nil_needle (hay : List Char) : listHasSub hay [] = true := by
  cases hay <;> simp [listHasSub, listStartsWith]

/-! ### Voice resolver (`pickSanskritVoice` and the utterance setup of
`speakChunk`, Sanskrit-only revision of `PlantDetail.tsx`) -/

/-- JavaScript `s.toLowerCase()` on code-unit lists (the strings compared
are ASCII, where `Char.toLower` agrees with JavaScript). -/
def lowerChars (l : List Char) : List Char := l.map Char.toLower

/-- A speech-synthesis voice as seen by the resolver: its BCP-47 language
tag and its display name. -/
structure Voice where
  lang : List Char
  name : List Char
  deriving DecidableEq, Repr

/-- First priority: `lower(v.lang) === "sa" || lower(v.lang) === "sa-in"`. -/
def saExactMatch (v : Voice) : Bool :=
  lowerChars v.lang == "sa".data || lowerChars v.lang == "sa-in".data

/-- Second priority: `lower(v.lang).startsWith("sa")`. -/
def saLangStart (v : Voice) : Bool := listStartsWith "sa".data (lowerChars v.lang)

/-- Third priority: `lower(v.name).includes("sanskrit")`. -/
def saNameMatch (v : Voice) : Bool := listHasSub (lowerChars v.name) "sanskrit".data

/-- `pickSanskritVoice` from `PlantDetail.tsx`: the `find || find || find
|| null` chain. -/
def pickSanskritVoice (voices : List Voice) : Option Voice :=
  match voices.find? saExactMatch with
  | some v => some v
  | none =>
    match voices.find? saLangStart with
    | some v => some v
    | none => voices.find? saNameMatch

/-- The observable configuration `speakChunk` gives an utterance: the
language tag and the optionally assigned voice. -/
structure UtterConfig where
  lang : List Char
  voice : Option Voice
  deriving DecidableEq, Repr

/-- Utterance setup in `speakChunk`: `utter.lang = "sa-IN"` always; the
voice is assigned only when `pickSanskritVoice` found one. -/
def utterConfigFor (voices : List Voice) : UtterConfig :=
  { lang := "sa-IN".data, voice := pickSanskritVoice voices }

/-- Claim C8: voice selection follows the strict priority exact-locale >
language-prefix > name-substring > none, and when no voice is selected the
utterance still carries the bare "sa-IN" language tag with no voice
assigned (not an error). -/
theorem C8_voice_selection :
    ∀ vs : List Voice,
      (pickSanskritVoice vs = none ↔
        ∀ v ∈ vs, saExactMatch v = false ∧ saLangStart v = false ∧ saNameMatch v = false)
      ∧ (∀ v, pickSanskritVoice vs = some v → v ∈ vs ∧
          (saExactMatch v = true
            ∨ (saLangStart v = true ∧ ∀ w ∈ vs, saExactMatch w = false)
            ∨ (saNameMatch v = true ∧ ∀ w ∈ vs, saExactMatch w = false ∧ saLangStart w = false)))
      ∧ (utterConfigFor vs).lang = "sa-IN".data
      ∧ (utterConfigFor vs).voice = pickSanskritVoice vs := by
  intro vs
  refine ⟨?_, ?_, rfl, rfl⟩
  · unfold pickSanskritVoice
    cases he : vs.find? saExactMatch with
    | some v =>
      simp only [reduceCtorEq, false_iff]
      intro hall
      have h1 := List.find?_some he
      have h2 := (hall v (List.mem_of_find?_eq_some he)).1
      simp [h2] at h1
    | none =>
      have hex : ∀ w ∈ vs, saExactMatch w = false := by
        intro w hw
        simpa using List.find?_eq_none.mp he w hw
      cases hs : vs.find? saLangStart with
      | some v =>
        simp only [reduceCtorEq, false_iff]
        intro hall
        have h1 := List.find?_some hs
        have h2 := (hall v (List.mem_of_find?_eq_some hs)).2.1
        simp [h2] at h1
      | none =>
        have hst : ∀ w ∈ vs, saLangStart w = false := by
          intro w hw
          simpa using List.find?_eq_none.mp hs w hw
        cases hn : vs.find? saNameMatch with
        | some v =>
          simp only [reduceCtorEq, false_iff]
          intro hall
          have h1 := List.find?_some hn
          have h2 := (hall v (List.mem_of_find?_eq_some hn)).2.2
          simp [h2] at h1
        | none =>
          have hnm : ∀ w ∈ vs, saNameMatch w = false := by
            intro w hw
            simpa using List.find?_eq_none.mp hn w hw
          simp only [true_iff]
          exact fun w hw => ⟨hex w hw, hst w hw, hnm w hw⟩
  · intro v hv
    unfold pickSanskritVoice at hv
    cases he : vs.find? saExactMatch with
    | some w =>
      rw [he] at hv
      have hwv : w = v := by simpa using hv
      subst hwv
      exact ⟨List.mem_of_find?_eq_some he, Or.inl (List.find?_some he)⟩
    | none =>
      rw [he] at hv
      have hex : ∀ w ∈ vs, saExactMatch w = false := by
        intro w hw
        simpa using List.find?_eq_none.mp he w hw
      cases hs : vs.find? saLangStart with
      | some w =>
        rw [hs] at hv
        have hwv : w = v := by simpa using hv
        subst hwv
        exact ⟨List.mem_of_find?_eq_some hs, Or.inr (Or.inl ⟨List.find?_some hs, hex⟩)⟩
      | none =>
        rw [hs] at hv
        have hst : ∀ w ∈ vs, saLangStart w = false := by
          intro w hw
          simpa using List.find?_eq_none.mp hs w hw
        exact ⟨List.mem_of_find?_eq_some hv,
          Or.inr (Or.inr ⟨List.find?_some hv, fun w hw => ⟨hex w hw, hst w hw⟩⟩)⟩

/-- A Hindi voice (must NOT be picked despite being an Indic fallback
candidate). -/
def vHindi : Voice := ⟨"hi-IN".data, "Hindi India".data⟩

/-- An upper-case Sanskrit locale voice (exact match case-insensitively). -/
def vSaUpper : Voice := ⟨"SA-IN".data, "Test Voice".data⟩

/-- Demo voice list for the C8 witness. -/
def demoVoices : List Voice := [vHindi, vSaUpper]

/-- Witness for C8: on a concrete voice list the selected voice is the
case-insensitive exact Sanskrit locale match. -/
theorem C8_voice_selection_witness :
    vSaUpper ∈ demoVoices ∧
      (saExactMatch vSaUpper = true
        ∨ (saLangStart vSaUpper = true ∧ ∀ w ∈ demoVoices, saExactMatch w = false)
        ∨ (saNameMatch vSaUpper = true ∧
            ∀ w ∈ demoVoices, saExactMatch w = false ∧ saLangStart w = false)) :=
  (C8_voice_selection demoVoices).2.1 vSaUpper (by decide)

/-! ### Client-side search filter (`filteredPlants` in `PlantsList.tsx`) -/

/-- A plant record as the public list page sees it: the four searchable
fields (the optional ones model the `?.` optional chaining). -/
structure PlantRec where
  name : List Char
  botanical_name : Option (List Char)
  family : Option (List Char)
  english_name : Option (List Char)
  deriving DecidableEq, Repr

/-- `field?.toLowerCase().includes(q.toLowerCase())`: an absent field never
matches (undefined is falsy). -/
def optIncludes (q : List Char) : Option (List Char) → Bool
  | some s => listHasSub (lowerChars s) (lowerChars q)
  | none => false

/-- The predicate of the `plants.filter(...)` expression in
`PlantsList.tsx` (name, botanical name, family, English name). -/
def matchesQuery (q : List Char) (p : PlantRec) : Bool :=
  listHasSub (lowerChars p.name) (lowerChars q)
  || optIncludes q p.botanical_name
  || optIncludes q p.family
  || optIncludes q p.english_name

/-- `filteredPlants` from `PlantsList.tsx`. -/
def filteredPlants (q : List Char) (ps : List PlantRec) : List PlantRec :=
  ps.filter (matchesQuery q)

/-- `needle` is a contiguous substring of `hay` (the semantic meaning of
JavaScript `includes`). -/
def IsSubstringOf (needle hay : List Char) : Prop := ∃ l r, hay = l ++ needle ++ r

theorem optIncludes_iff (q : List Char) (o : Option (List Char)) :
    optIncludes q o = true ↔ ∃ s, o = some s ∧ IsSubstringOf (lowerChars q) (lowerChars s) := by
  cases o <;> simp [optIncludes, listHasSub_iff, IsSubstringOf]

/-- Claim C10: the search filter returns exactly the loaded plants for
which the query is a case-insensitive substring of the name, botanical
name, family, or English name; it preserves the order of the loaded list
(the result is a sublist); and the empty query returns every plant
unchanged. -/
theorem C10_search_filter :
    ∀ (q : List Char) (ps : List PlantRec),
      (∀ p, p ∈ filteredPlants q ps ↔ p ∈ ps ∧
        (IsSubstringOf (lowerChars q) (lowerChars p.name)
          ∨ (∃ s, p.botanical_name = some s ∧ IsSubstringOf (lowerChars q) (lowerChars s))
          ∨ (∃ s, p.family = some s ∧ IsSubstringOf (lowerChars q) (lowerChars s))
          ∨ (∃ s, p.english_name = some s ∧ IsSubstringOf (lowerChars q) (lowerChars s))))
      ∧ List.Sublist (filteredPlants q ps) ps
      ∧ filteredPlants [] ps = ps := by
  intro q ps
  refine ⟨?_, List.filter_sublist ps, ?_⟩
  · intro p
    rw [filteredPlants, List.mem_filter]
    constructor
    · rintro ⟨hmem, hmatch⟩
      refine ⟨hmem, ?_⟩
      simp only [matchesQuery, Bool.or_eq_true, listHasSub_iff, optIncludes_iff] at hmatch
      rcases hmatch with ((h | h) | h) | h
      · exact Or.inl h
      · exact Or.inr (Or.inl h)
      · exact Or.inr (Or.inr (Or.inl h))
      · exact Or.inr (Or.inr (Or.inr h))
    · rintro ⟨hmem, hmatch⟩
      refine ⟨hmem, ?_⟩
      simp only [matchesQuery, Bool.or_eq_true, listHasSub_iff, optIncludes_iff]
      rcases hmatch with h | h | h | h
      · exact Or.inl (Or.inl (Or.inl h))
      · exact Or.inl (Or.inl (Or.inr h))
      · exact Or.inl (Or.inr h)
      · exact Or.inr h
  · rw [filteredPlants]
    refine List.filter_eq_self.mpr fun p _ => ?_
    simp only [matchesQuery, Bool.or_eq_true]
    exact Or.inl (Or.inl (Or.inl (by simpa [lowerChars] using listHasSub_nil_needle (lowerChars p.name))))

/-! ### Admin save flows (`handleSubmit` in the admin page,
`handleEditSubmit` in `PlantDetail.tsx`) -/

/-- Persisted platform effects of the admin save flows, in execution
order.  A failed platform call persists nothing and aborts the `try`
block (the exception reaches the catch, which surfaces a notification). -/
inductive DbEff
  | insertRec | uploadImage | updateImages | uploadAudio | updateAudio
  | deleteImages | deleteAudio | updateRec
  deriving DecidableEq, Repr

/-- The audio tail of the add form's `handleSubmit`: upload the audio file
then update the record's `audio_url`.  `t` is the effect trace so far. -/
def submitAudioPart (t : List DbEff) (hasAudio audUpOk audUpdOk : Bool) : List DbEff × Bool :=
  if hasAudio = true then
    if audUpOk = false then (t, false)
    else
      let t1 := t ++ [DbEff.uploadAudio]
      if audUpdOk = false then (t1, false)
      else (t1 ++ [DbEff.updateAudio], true)
  else (t, true)

/-- The admin add form's `handleSubmit` (`src/unnamed/part_001`): validate
the name, insert the record (with empty image list), then upload images and
update the record with their URLs, then upload audio and update the
record's audio URL.  Returns the persisted effect trace and whether the
save completed (`false` means an early validation return or the catch
block's error notification). -/
def handleSubmitRun (nameNonempty hasImages hasAudio insertOk imgUpOk imgUpdOk
    audUpOk audUpdOk : Bool) : List DbEff × Bool :=
  if nameNonempty = false then ([], false)
  else if insertOk = false then ([], false)
  else
    let t0 := [DbEff.insertRec]
    if hasImages = true then
      if imgUpOk = false then (t0, false)
      else
        let t1 := t0 ++ [DbEff.uploadImage]
        if imgUpdOk = false then (t1, false)
        else submitAudioPart (t1 ++ [DbEff.updateImages]) hasAudio audUpOk audUpdOk
    else submitAudioPart t0 hasAudio audUpOk audUpdOk

/-- The final record update of `handleEditSubmit`. -/
def editFinish (t : List DbEff) (updOk : Bool) : List DbEff × Bool :=
  if updOk = false then (t, false) else (t ++ [DbEff.updateRec], true)

/-- `handleEditSubmit` from `PlantDetail.tsx`: admin/name validation, new
image upload, storage deletion of removed images (its own errors are
swallowed in the source, so it always proceeds), audio delete/upload
handling, then one full-record update.  Returns the persisted effect trace
and whether the save completed. -/
def handleEditSubmitRun (isAdmin nameNonempty hasNewImages hasDeletions audioDel
    hasNewAudio hadOldAudio imgUpOk audUpOk updOk : Bool) : List DbEff × Bool :=
  if isAdmin = false then ([], false)
  else if nameNonempty = false then ([], false)
  else if hasNewImages = true ∧ imgUpOk = false then ([], false)
  else
    let t1 := if hasNewImages = true then [DbEff.uploadImage] else []
    let t2 := t1 ++ (if hasDeletions = true then [DbEff.deleteImages] else [])
    if audioDel = true ∧ hadOldAudio = true then
      editFinish (t2 ++ [DbEff.deleteAudio]) updOk
    else if hasNewAudio = true then
      let t3 := t2 ++ (if hadOldAudio = true then [DbEff.deleteAudio] else [])
      if audUpOk = false then (t3, false)
      else editFinish (t3 ++ [DbEff.uploadAudio]) updOk
    else editFinish t2 updOk

/-- Claim C9 as stated is false for the add form: the record insert runs
BEFORE the uploads, so when the image upload then fails the save is
aborted and reports an error, yet the freshly inserted record persists —
the prior state was modified by the failed save. -/
theorem C9_counterexample :
    (handleSubmitRun true true false true false true true true).1 = [DbEff.insertRec]
    ∧ (handleSubmitRun true true false true false true true true).2 = false := by decide

/-- Claim C9 (amended): an upload failure aborts the in-progress save and
the save reports failure (a notification is surfaced).  On the edit form
no record update takes effect, leaving the record unmodified.  On the add
form no record update takes effect either, but the initial insert (which
runs before any upload) persists: a failed image upload leaves exactly the
inserted record, and a failed audio upload never reaches the audio-URL
update. -/
theorem C9_upload_failure_aborts :
    ∀ (isAdmin nameNonempty hasNewImages hasDeletions audioDel hasNewAudio
       hadOldAudio eImgUpOk eAudUpOk updOk
       hasImages hasAudio insertOk imgUpOk imgUpdOk audUpOk audUpdOk : Bool),
      (((hasNewImages = true ∧ eImgUpOk = false)
          ∨ (hasNewAudio = true ∧ ¬(audioDel = true ∧ hadOldAudio = true)
              ∧ eAudUpOk = false)) →
        DbEff.updateRec ∉ (handleEditSubmitRun isAdmin nameNonempty hasNewImages
            hasDeletions audioDel hasNewAudio hadOldAudio eImgUpOk eAudUpOk updOk).1
          ∧ (handleEditSubmitRun isAdmin nameNonempty hasNewImages hasDeletions
              audioDel hasNewAudio hadOldAudio eImgUpOk eAudUpOk updOk).2 = false)
      ∧ ((nameNonempty = true ∧ insertOk = true ∧ hasImages = true ∧ imgUpOk = false) →
          handleSubmitRun nameNonempty hasImages hasAudio insertOk imgUpOk imgUpdOk
              audUpOk audUpdOk = ([DbEff.insertRec], false))
      ∧ ((hasAudio = true ∧ audUpOk = false) →
          DbEff.updateAudio ∉ (handleSubmitRun nameNonempty hasImages hasAudio insertOk
              imgUpOk imgUpdOk audUpOk audUpdOk).1
            ∧ (handleSubmitRun nameNonempty hasImages hasAudio insertOk imgUpOk imgUpdOk
                audUpOk audUpdOk).2 = false) := by
  intro isAdmin nameNonempty hasNewImages hasDeletions audioDel hasNewAudio
    hadOldAudio eImgUpOk eAudUpOk updOk hasImages hasAudio insertOk imgUpOk
    imgUpdOk audUpOk audUpdOk
  refine ⟨?_, ?_, ?_⟩
  · rintro (⟨h1, h2⟩ | ⟨h1, h2, h3⟩)
    · subst h1; subst h2
      cases isAdmin <;> cases nameNonempty <;>
        simp [handleEditSubmitRun, editFinish]
    · subst h1; subst h3
      cases isAdmin <;> cases nameNonempty <;> cases hasNewImages <;>
        cases eImgUpOk <;> cases hasDeletions <;> cases audioDel <;>
        cases hadOldAudio <;> cases updOk <;>
        simp_all [handleEditSubmitRun, editFinish]
  · rintro ⟨h1, h2, h3, h4⟩
    subst h1; subst h2; subst h3; subst h4
    simp [handleSubmitRun]
  · rintro ⟨h1, h2⟩
    subst h1; subst h2
    cases nameNonempty <;> cases insertOk <;> cases hasImages <;>
      cases imgUpOk <;> cases imgUpdOk <;>
      simp [handleSubmitRun, submitAudioPart]

/-- Witness for C9: evaluates the amended theorem at a failed edit-form
image upload and a failed add-form audio upload. -/
theorem C9_upload_failure_aborts_witness :
    (DbEff.updateRec ∉ (handleEditSubmitRun true true true false false false
        false false true true).1
      ∧ (handleEditSubmitRun true true true false false false false false
          true true).2 = false)
    ∧ (DbEff.updateAudio ∉ (handleSubmitRun true false true true true true
        false true).1
      ∧ (handleSubmitRun true false true true true true false true).2 = false) :=
  ⟨(C9_upload_failure_aborts true true true false false false false false true true
      false true true true true false true).1 (Or.inl ⟨rfl, rfl⟩),
   (C9_upload_failure_aborts true true true false false false false false true true
      false true true true true false true).2.2 ⟨rfl, rfl⟩⟩

/-! ### Playback controller (`playShloka` / `speakChunk` / `stopAudio`,
Sanskrit-only revision of `PlantDetail.tsx`)

The controller is event-driven, single-threaded JavaScript.  We model it
as a deterministic step function over scheduler actions: a play request
(`playShloka`), the firing of the 50 ms deferred `speechSynthesis.speak`
call scheduled inside `speakChunk`, the engine's end / error events for
the in-flight utterance, and a manual stop.  Each action's synchronous
handler is one atomic step (the model commits to the schedule in which
`getVoicesAsync` resolves without interleaving).  A `Task` is one live
`playShloka` chunk loop: `total` chunks, currently awaiting chunk `idx`.
Pending entries `(tid, idx)` are scheduled-but-not-yet-fired deferred
`speak` calls — note `stopAudio` cancels the engine but does NOT cancel
these JavaScript timeouts. -/

/-- One live `playShloka` chunk-loop instance. -/
structure Task where
  id : Nat
  total : Nat
  idx : Nat
  deriving DecidableEq, Repr

/-- The controller state: the shared refs of the component (`canceledRef`,
`isPlaying`, `resumeNudgeRef` as a Boolean "interval active", the engine
and media handles) plus the live loops and pending deferred speak calls. -/
structure Sys where
  canceled : Bool
  isPlaying : Bool
  nudge : Bool
  engineSpeaking : Bool
  mediaPlaying : Bool
  tasks : List Task
  pending : List (Nat × Nat)
  nextId : Nat
  deriving DecidableEq, Repr

/-- Fresh component state. -/
def initSys : Sys :=
  { canceled := false, isPlaying := false, nudge := false,
    engineSpeaking := false, mediaPlaying := false,
    tasks := [], pending := [], nextId := 0 }

/-- Observable events of a step: `seqChunk` — the loop calls `speakChunk`
for chunk `idx` (the chunk is sequenced); `engineSpoke` — the deferred
`speak` call fires and the engine starts the utterance (audio becomes
audible, `onstart` starts the nudge); `completed` — the utterance's
end/error callback for chunk `idx` runs. -/
inductive Ev
  | seqChunk (tid idx : Nat)
  | engineSpoke (tid idx : Nat)
  | completed (tid idx : Nat)
  deriving DecidableEq, Repr

/-- Scheduler actions. -/
inductive Act
  | play (n : Nat)
  | timerFire (tid idx : Nat)
  | done (tid : Nat)
  | err (tid : Nat)
  | stop
  deriving DecidableEq, Repr

/-- `stopAudio` (lines 2093–2106): set `canceledRef`, clear the resume
nudge, `speechSynthesis.cancel()`, pause/reset the media element, and
`setIsPlaying(false)`. -/
def stopAudioSem (s : Sys) : Sys :=
  { s with canceled := true, nudge := false, engineSpeaking := false,
           mediaPlaying := false, isPlaying := false }

/-- One scheduler action processed atomically, mirroring the source:

* `play n` — `playShloka` with text chunking into `n` chunks: first
  `stopAudio()`; empty text returns after the stop; otherwise
  `setIsPlaying(true)`, `canceledRef.current = false`, and the loop's
  first iteration checks the (fresh) flag and calls `speakChunk` for
  chunk 0, scheduling its deferred `speak`.
* `timerFire` — a scheduled `setTimeout(() => speechSynthesis.speak(utter), 50)`
  callback runs: the utterance is handed to the engine regardless of any
  intervening stop (the callback re-checks nothing); `onstart` starts the
  resume nudge.
* `done tid` — the in-flight utterance's `onend` fires: `clearResumeNudge`
  then the loop resumes: if `canceledRef` is set it breaks (skipping
  `setIsPlaying(false)`); else it advances and either sequences the next
  chunk or, after the last chunk, does `setIsPlaying(false)`.
* `err tid` — `onerror` fires: `clearResumeNudge`, the rejection reaches
  `playShloka`'s catch, and the code after it runs `setIsPlaying(false)`
  (unconditionally) and surfaces a toast.
* `stop` — `stopAudio()`. -/
def step (a : Act) (s : Sys) : Sys × List Ev :=
  match a with
  | .play n =>
    let s1 := stopAudioSem s
    if n = 0 then (s1, [])
    else
      ({ s1 with isPlaying := true, canceled := false,
                 tasks := s1.tasks ++ [⟨s1.nextId, n, 0⟩],
                 pending := s1.pending ++ [(s1.nextId, 0)],
                 nextId := s1.nextId + 1 },
       [Ev.seqChunk s1.nextId 0])
  | .timerFire tid k =>
    if (tid, k) ∈ s.pending then
      ({ s with pending := s.pending.erase (tid, k),
                engineSpeaking := true, nudge := true },
       [Ev.engineSpoke tid k])
    else (s, [])
  | .done tid =>
    match s.tasks.find? (fun t => t.id == tid) with
    | none => (s, [])
    | some t =>
      let s1 := { s with nudge := false, engineSpeaking := false }
      if s.canceled = true then
        ({ s1 with tasks := s1.tasks.filter (fun u => u.id != tid) },
         [Ev.completed tid t.idx])
      else if t.idx + 1 < t.total then
        ({ s1 with
            tasks := s1.tasks.map
              (fun u => if u.id = tid then { u with idx := u.idx + 1 } else u),
            pending := s1.pending ++ [(tid, t.idx + 1)] },
         [Ev.completed tid t.idx, Ev.seqChunk tid (t.idx + 1)])
      else
        ({ s1 with tasks := s1.tasks.filter (fun u => u.id != tid),
                   isPlaying := false },
         [Ev.completed tid t.idx])
  | .err tid =>
    match s.tasks.find? (fun t => t.id == tid) with
    | none => (s, [])
    | some t =>
      ({ s with nudge := false, engineSpeaking := false, isPlaying := false,
                tasks := s.tasks.filter (fun u => u.id != tid) },
       [Ev.completed tid t.idx])
  | .stop => (stopAudioSem s, [])

/-- Run a schedule from a state, collecting events in order. -/
def runFrom : Sys → List Act → Sys × List Ev
  | s, [] => (s, [])
  | s, a :: as =>
    let r1 := step a s
    let r2 := runFrom r1.1 as
    (r2.1, r1.2 ++ r2.2)

/-- Run a schedule from the fresh component state. -/
def run (acts : List Act) : Sys × List Ev := runFrom initSys acts

/-- Claim C3: every transition out of the playing state — normal utterance
completion, a synthesis error, or a manual stop (indeed, any action at
all) — leaves the resume-nudge interval cleared.  Stated over arbitrary
states, not only reachable ones. -/
theorem C3_nudge_cleared_on_exit :
    ∀ (s : Sys) (a : Act), s.isPlaying = true → (step a s).1.isPlaying = false →
      (step a s).1.nudge = false := by
  intro s a hp hq
  cases a with
  | play n =>
    by_cases hn : n = 0
    · simp [step, hn, stopAudioSem]
    · simp [step, hn, stopAudioSem] at hq
  | timerFire tid k =>
    by_cases hmem : (tid, k) ∈ s.pending
    · simp [step, hmem] at hq
      rw [hp] at hq; cases hq
    · simp [step, hmem] at hq
      rw [hp] at hq; cases hq
  | done tid =>
    rw [step] at *
    cases hfind : s.tasks.find? (fun t => t.id == tid) with
    | none =>
      rw [hfind] at hq
      simp at hq
      rw [hp] at hq; cases hq
    | some t =>
      by_cases hc : s.canceled = true
      · simp [hc]
      · by_cases hlt : t.idx + 1 < t.total
        · simp [hc, hlt]
        · simp [hc, hlt]
  | err tid =>
    rw [step] at *
    cases hfind : s.tasks.find? (fun t => t.id == tid) with
    | none =>
      rw [hfind] at hq
      simp at hq
      rw [hp] at hq; cases hq
    | some t => simp
  | stop => simp [step, stopAudioSem]

/-- Witness for C3: exiting the playing state via a manual stop from a
concrete playing state leaves the nudge cleared. -/
theorem C3_nudge_cleared_on_exit_witness :
    (step Act.stop (run [Act.play 1]).1).1.nudge = false :=
  C3_nudge_cleared_on_exit (run [Act.play 1]).1 Act.stop (by decide) (by decide)

/-- Helper: once the canceled flag is set and the controller is idle, any
non-play action keeps it so and sequences no chunk. -/
theorem step_nonplay_preserves (a : Act) (s : Sys) (hnp : ∀ n, a ≠ Act.play n)
    (hc : s.canceled = true) (hp : s.isPlaying = false) :
    (step a s).1.canceled = true ∧ (step a s).1.isPlaying = false
      ∧ ∀ tid k, Ev.seqChunk tid k ∉ (step a s).2 := by
  cases a with
  | play n => exact absurd rfl (hnp n)
  | timerFire tid2 k2 =>
    by_cases hmem : (tid2, k2) ∈ s.pending <;>
      simp [step, hmem, hc, hp]
  | done tid2 =>
    rw [step]
    cases hfind : s.tasks.find? (fun t => t.id == tid2) with
    | none => simp [hc, hp]
    | some t => simp [hc, hp]
  | err tid2 =>
    rw [step]
    cases hfind : s.tasks.find? (fun t => t.id == tid2) with
    | none => simp [hc, hp]
    | some t => simp [hc, hp]
  | stop => simp [step, stopAudioSem]

/-- Helper: the canceled-and-idle invariant propagated along any play-free
schedule: the controller stays idle and no chunk is ever sequenced. -/
theorem runFrom_canceled_idle (acts : List Act) :
    ∀ s : Sys, s.canceled = true → s.isPlaying = false →
      (∀ a ∈ acts, ∀ n, a ≠ Act.play n) →
      (runFrom s acts).1.canceled = true ∧ (runFrom s acts).1.isPlaying = false
        ∧ ∀ tid k, Ev.seqChunk tid k ∉ (runFrom s acts).2 := by
  induction acts with
  | nil => intro s hc hp _; simpa [runFrom] using ⟨hc, hp⟩
  | cons a as ih =>
    intro s hc hp hnp
    have h1 := step_nonplay_preserves a s (hnp a (List.mem_cons_self a as)) hc hp
    have h2 := ih (step a s).1 h1.1 h1.2.1
      (fun b hb => hnp b (List.mem_cons_of_mem a hb))
    refine ⟨?_, ?_, ?_⟩
    · simpa [runFrom] using h2.1
    · simpa [runFrom] using h2.2.1
    · intro tid k
      simp only [runFrom, List.mem_append]
      rintro (h | h)
      · exact h1.2.2 tid k h
      · exact h2.2.2 tid k h

/-- Claim C4 as stated is false in one respect: after a stop, a chunk
whose deferred `speechSynthesis.speak` call (scheduled 50 ms after it was
sequenced) has not yet fired is still handed to the engine — the stopped
sequence's chunk becomes audible after the stop.  Concretely: play a
one-chunk text, stop before the 50 ms timer fires, then let it fire: the
system is idle after the stop, yet the trace ends with the engine starting
chunk 0 of the stopped sequence. -/
theorem C4_counterexample :
    (run [Act.play 1, Act.stop]).1.isPlaying = false
    ∧ (run [Act.play 1, Act.stop]).1.canceled = true
    ∧ (run [Act.play 1, Act.stop, Act.timerFire 0 0]).2
        = [Ev.seqChunk 0 0, Ev.engineSpoke 0 0]
    ∧ (run [Act.play 1, Act.stop, Act.timerFire 0 0]).1.nudge = true := by decide

/-- Claim C4 (amended): issuing stop sets the shared canceled flag, clears
the resume-nudge timer, cancels the speech engine and the media element,
and transitions the controller to idle; afterwards, absent a new play
request, no completion callback is acted upon — no further chunk of the
stopped sequence is sequenced and the state never returns to playing.
(The one exception, shown false above, is a chunk whose deferred engine
`speak` call was already scheduled before the stop: it is still handed to
the engine, because the deferred callback does not re-check the flag.) -/
theorem C4_stop_semantics :
    ∀ (s : Sys) (acts : List Act),
      (step Act.stop s).1.canceled = true
      ∧ (step Act.stop s).1.nudge = false
      ∧ (step Act.stop s).1.isPlaying = false
      ∧ (step Act.stop s).1.engineSpeaking = false
      ∧ (step Act.stop s).1.mediaPlaying = false
      ∧ ((∀ a ∈ acts, ∀ n, a ≠ Act.play n) →
          (runFrom (step Act.stop s).1 acts).1.isPlaying = false
          ∧ ∀ tid k, Ev.seqChunk tid k ∉ (runFrom (step Act.stop s).1 acts).2) := by
  intro s acts
  refine ⟨rfl, rfl, rfl, rfl, rfl, fun hnp => ?_⟩
  have h := runFrom_canceled_idle acts (step Act.stop s).1 rfl rfl hnp
  exact ⟨h.2.1, h.2.2⟩

/-- Witness for C4: from a concrete playing state, after a stop the
delivery of the in-flight chunk's completion leaves the controller idle
and sequences nothing. -/
theorem C4_stop_semantics_witness :
    (runFrom (step Act.stop (run [Act.play 2]).1).1 [Act.done 0]).1.isPlaying = false
    ∧ ∀ tid k,
        Ev.seqChunk tid k ∉ (runFrom (step Act.stop (run [Act.play 2]).1).1 [Act.done 0]).2 :=
  (C4_stop_semantics (run [Act.play 2]).1 [Act.done 0]).2.2.2.2.2
    (by intro a ha n; simp at ha; subst ha; simp)

/-- Claim C5: the sequencer is strictly sequential and checks the shared
canceled flag before each chunk.  A chunk is sequenced in a step only if
it is chunk 0 of a fresh non-empty play request, or the step is the very
completion event of the same task's previous chunk (the completion
precedes it in the step's event list) with the canceled flag unset. -/
theorem C5_sequencer_discipline :
    ∀ (s : Sys) (a : Act) (tid k : Nat),
      Ev.seqChunk tid k ∈ (step a s).2 →
      (k = 0 ∧ tid = s.nextId ∧ ∃ n, a = Act.play n ∧ 0 < n)
      ∨ (0 < k ∧ a = Act.done tid ∧ s.canceled = false
          ∧ (step a s).2 = [Ev.completed tid (k - 1), Ev.seqChunk tid k]
          ∧ ∃ t ∈ s.tasks, t.id = tid ∧ t.idx + 1 = k ∧ k < t.total) := by
  intro s a tid k hmem
  cases a with
  | play n =>
    by_cases hn : n = 0
    · simp [step, hn] at hmem
    · simp [step, hn] at hmem
      exact Or.inl ⟨hmem.2, hmem.1, n, rfl, Nat.pos_of_ne_zero hn⟩
  | timerFire tid2 k2 =>
    by_cases hmem2 : (tid2, k2) ∈ s.pending <;> simp [step, hmem2] at hmem
  | done tid2 =>
    simp only [step] at hmem ⊢
    cases hfind : s.tasks.find? (fun t => t.id == tid2) with
    | none =>
      rw [hfind] at hmem
      simp at hmem
    | some t =>
      rw [hfind] at hmem
      by_cases hc : s.canceled = true
      · simp [hc] at hmem
      · by_cases hlt : t.idx + 1 < t.total
        · simp [hc, hlt] at hmem
          obtain ⟨htid, hk⟩ := hmem
          subst htid; subst hk
          refine Or.inr ⟨Nat.succ_pos _, rfl, by simpa using hc, ?_,
            t, List.mem_of_find?_eq_some hfind, ?_, rfl, hlt⟩
          · simp [hc, hlt]
          · simpa using List.find?_some hfind
        · simp [hc, hlt] at hmem
  | err tid2 =>
    simp only [step] at hmem
    cases hfind : s.tasks.find? (fun t => t.id == tid2) with
    | none =>
      rw [hfind] at hmem
      simp at hmem
    | some t =>
      rw [hfind] at hmem
      simp at hmem
  | stop => simp [step] at hmem

/-- Witness for C5: in a concrete playing state with a two-chunk task,
chunk 1 is sequenced exactly by chunk 0's completion event, with the
canceled flag unset. -/
theorem C5_sequencer_discipline_witness :
    (1 = 0 ∧ 0 = (run [Act.play 2]).1.nextId ∧ ∃ n, Act.done 0 = Act.play n ∧ 0 < n)
    ∨ (0 < 1 ∧ Act.done 0 = Act.done 0 ∧ (run [Act.play 2]).1.canceled = false
        ∧ (step (Act.done 0) (run [Act.play 2]).1).2
            = [Ev.completed 0 (1 - 1), Ev.seqChunk 0 1]
        ∧ ∃ t ∈ (run [Act.play 2]).1.tasks, t.id = 0 ∧ t.idx + 1 = 1 ∧ 1 < t.total) :=
  C5_sequencer_discipline (run [Act.play 2]).1 (Act.done 0) 0 1 (by decide)

/-- Claim C6 is the intended behaviour, but the code fails it: a second
play request issued while the first sequence's chunk 0 is still pending
(within the 50 ms speak deferral) resets the shared `canceledRef` to
`false`; when chunk 0's deferred speak then fires and completes, the FIRST
loop's flag check passes and it sequences its chunk 1 — two playback
sequences are now interleaved (both tasks live, the old one actively
sequencing after the new request), instead of the second superseding the
first. -/
theorem C6_double_play_overlap :
    (run [Act.play 2, Act.play 1]).1.tasks.length = 2
    ∧ (run [Act.play 2, Act.play 1, Act.timerFire 0 0, Act.done 0]).2
        = [Ev.seqChunk 0 0, Ev.seqChunk 1 0, Ev.engineSpoke 0 0,
           Ev.completed 0 0, Ev.seqChunk 0 1]
    ∧ (run [Act.play 2, Act.play 1, Act.timerFire 0 0, Act.done 0]).1.tasks
        = [⟨0, 2, 1⟩, ⟨1, 1, 0⟩]
    ∧ (run [Act.play 2, Act.play 1, Act.timerFire 0 0, Act.done 0]).1.isPlaying
        = true := by decide

/-! ### Storage-versus-synthesis fallback (`playAudio` / `handleError`,
earlier revision of `PlantDetail.tsx`, lines 172–339)

`playAudio` tries the stored audio URL through a media element and is
meant to fall back to `playTTS` on failure.  Three failure signals can
each try to run the fallback: the one-shot `error`/`abort` listeners, the
10-second load timeout, and the load-promise rejection reaching the inner
catch — all funnelled through `handleError`, which is guarded by the
local `errorHandled` flag and by `isStoppedManuallyRef`.  Crucially, the
function's own prologue first resets `isStoppedManuallyRef.current =
false` (line 187) and THEN calls `stopAudio()` (line 190), which sets the
flag back to `true` (line 152); line 187 is the only place in the file
that ever clears the flag, so it is `true` throughout the streaming
attempt and every guarded fallback site (lines 223, 234, 282, 307, 316)
is skipped.  Only the no-stored-URL branch reaches `playTTS` (line 338,
unguarded).  `playTTS` itself never touches the media element, so there
is no path back from synthesis to streaming.  The outer catch is
reachable only for exceptions thrown outside the inner try (element
setup), which no modelled environment produces. -/

/-- Result of the bounded wait for the media element to become playable. -/
inductive LoadRes
  | canplay | errorEv | timeout
  deriving DecidableEq, Repr

/-- Per-request observable counters: whether `handleError` already ran,
how many times `playTTS` was invoked (fallback transitions), and how many
streaming attempts were made on the media element. -/
structure PlayAudioSt where
  errorHandled : Bool
  ttsCalls : Nat
  streamAttempts : Nat
  deriving DecidableEq, Repr

/-- `handleError` (lines 220–247): do nothing if the audio was stopped
manually or the error was already handled; otherwise mark it handled,
surface the toast, and invoke the `playTTS` fallback once. -/
def handleErrorM (stopped : Bool) (st : PlayAudioSt) : PlayAudioSt :=
  if stopped = true then st
  else if st.errorHandled = true then st
  else { st with errorHandled := true, ttsCalls := st.ttsCalls + 1 }

/-- `playAudio` for a plant with shloka text: with no stored URL it goes
straight to `playTTS` (silent, intentional non-error path); with a URL it
makes one streaming attempt and runs the guarded `handleError` calls that
the environment's failure signals trigger, in source order (one-shot
media listener, promise `onError`/timeout handler, inner catch).  The
manual-stop flag is program state, not an input: line 187 resets it to
`false`, but line 190's `stopAudio()` immediately sets it back to `true`
(line 152) and nothing clears it for the remainder of the request, so
every subsequent read of the flag yields `true`. -/
def playAudioRun (hasUrl : Bool) (load : LoadRes)
    (playOk errEvent : Bool) : PlayAudioSt :=
  let st0 : PlayAudioSt := ⟨false, 0, 0⟩
  let stopped := true
  if hasUrl = false then { st0 with ttsCalls := 1 }
  else
    let st0 := { st0 with streamAttempts := 1 }
    match load with
    | .canplay =>
      if playOk = true then st0
      else
        let st1 := if errEvent = true then handleErrorM stopped st0 else st0
        if stopped = true then st1
        else if st1.errorHandled = true then st1
        else handleErrorM stopped st1
    | .errorEv =>
      let st1 := handleErrorM stopped st0
      let st2 :=
        if stopped = false ∧ st1.errorHandled = false then handleErrorM stopped st1
        else st1
      if stopped = true then st2
      else if st2.errorHandled = true then st2
      else handleErrorM stopped st2
    | .timeout =>
      let st1 := if st0.errorHandled = false then handleErrorM stopped st0 else st0
      if stopped = true then st1
      else if st1.errorHandled = true then st1
      else handleErrorM stopped st1

/-- Claim C7 is the intended behaviour (the spec's fallback contract), but
the code never performs the fallback: because `playAudio` resets the
manual-stop flag (line 187) BEFORE calling `stopAudio()` (line 190), which
marks it `true` again (line 152) with no later reset, `handleError`
always returns early.  On every streaming failure — load error event
(with or without the duplicate listener firing), the bounded 10-second
timeout, or a rejected `play()` — zero fallback transitions to synthesis
occur (and no error notification is shown), not exactly one.  The
streaming attempt itself is made, and only the no-stored-URL path reaches
synthesis (unguarded, line 338). -/
theorem C7_no_fallback :
    (playAudioRun true LoadRes.errorEv true false).ttsCalls = 0
    ∧ (playAudioRun true LoadRes.errorEv true true).ttsCalls = 0
    ∧ (playAudioRun true LoadRes.timeout true false).ttsCalls = 0
    ∧ (playAudioRun true LoadRes.canplay false true).ttsCalls = 0
    ∧ (playAudioRun true LoadRes.canplay false false).ttsCalls = 0
    ∧ (playAudioRun true LoadRes.errorEv true false).streamAttempts = 1
    ∧ (playAudioRun true LoadRes.canplay true false).ttsCalls = 0
    ∧ (playAudioRun false LoadRes.canplay true false).ttsCalls = 1 := by decide

end VrukshaVeda
